import Mathlib

/-!
# A verification model of src/exodus/fees.cpp

The fee cache (CExodusFeeCache) persists, per property, a comma separated
list of block:amount entries; every operation re-reads that value through
GetCacheHistory, which parses it into a std::set of (block, amount) pairs
ordered by block height.  We therefore model the per-property state at the
level of that parsed set: a list of (Int × Int) pairs in ascending block
order.  The fee history (CExodusFeeHistory) is modelled at the level of the
key-value store itself: an association list of (key, value) strings, with
C++ std::string rendered as List Char, so that the colon/comma/equals
delimited record encoding is reproduced character by character.

Global knobs of the source are explicit parameters here:
- dbg models the global exodus_debug_fees flag (the PruneCache loop only
  discards an entry inside an if (exodus_debug_fees) block);
- maxHist models the MAX_STATE_HISTORY constant;
- overrideFlag models GetBoolArg("-overrideforcedshutdown", false);
- totalTokens and feeThreshold model getTotalTokens and EXODUS_FEE_THRESHOLD;
- the receiver set of a distribution (STO_GetReceivers) and the success of
  balance credits (update_tally_map) are parameters, being external
  collaborators of this file.
-/

/-- C++ std::string, modelled as its character list. -/
abbrev Str := List Char

/-- Collapse every run of the delimiter c to a single occurrence.  Together
with splitCh this models boost::split with boost::token_compress_on. -/
def collapse (c : Char) : Str → Str
  | [] => []
  | [x] => [x]
  | x :: y :: xs => if x = c ∧ y = c then collapse c (y :: xs) else x :: collapse c (y :: xs)

/-- Plain split on a delimiter character; the empty string yields one empty
token, like boost::split. -/
def splitCh (c : Char) : Str → List Str
  | [] => [[]]
  | x :: xs =>
    if x = c then [] :: splitCh c xs
    else
      match splitCh c xs with
      | [] => [[x]]
      | t :: ts => (x :: t) :: ts

/-- boost::split(out, s, boost::is_any_of(c), boost::token_compress_on). -/
def splitCompress (c : Char) (s : Str) : List Str := splitCh c (collapse c s)

/-- Decimal digits of n, most significant first; empty for 0 (helper for
printNat). -/
def printNatAux (n : Nat) : Str :=
  if h : n = 0 then [] else printNatAux (n / 10) ++ [Nat.digitChar (n % 10)]
termination_by n
decreasing_by exact Nat.div_lt_self (Nat.pos_of_ne_zero h) (by omega)

/-- strprintf("%d", n) for a non-negative value. -/
def printNat (n : Nat) : Str := if n = 0 then ['0'] else printNatAux n

/-- strprintf("%d", n) for a signed value. -/
def printInt (n : Int) : Str := if n < 0 then '-' :: printNat (-n).toNat else printNat n.toNat

/-- Accumulating decimal parser: digits extend the accumulator, anything else
fails (helper for parseNat). -/
def parseNatAux (a : Nat) : Str → Option Nat
  | [] => some a
  | c :: cs => if c.isDigit then parseNatAux (10 * a + (c.toNat - 48)) cs else none

/-- boost::lexical_cast to an unsigned integer: all-digit, non-empty input;
none models the bad_lexical_cast exception. -/
def parseNat (s : Str) : Option Nat :=
  match s with
  | [] => none
  | _ :: _ => parseNatAux 0 s

/-- boost::lexical_cast to a signed integer (optional leading minus sign). -/
def parseInt (s : Str) : Option Int :=
  match s with
  | [] => none
  | c :: rest =>
    if c = '-' then (parseNat rest).map (fun n => -(n : Int))
    else (parseNat (c :: rest)).map (fun n => (n : Int))

/-! ## CExodusFeeCache -/

/-- CExodusFeeCache::GetCachedAmount (fees.cpp:47-60): the amount of the
history entry with the greatest block height, or 0 for an empty history. -/
def GetCachedAmount (hist : List (Int × Int)) : Int :=
  match hist.getLast? with
  | some mostRecentItem => mostRecentItem.2
  | none => 0

/-- Ordered insertion by block height.  The rewrite paths of AddFee and
ClearCache append the new entry at the end of the persisted string after
filtering out any entry at the same height; the next GetCacheHistory parses
the string back into a std::set ordered by block, which is this ordered
position. -/
def insertEntry (e : Int × Int) : List (Int × Int) → List (Int × Int)
  | [] => [e]
  | x :: xs => if e.1 < x.1 then e :: x :: xs else x :: insertEntry e xs

/-- CExodusFeeCache::PruneCache (fees.cpp:225-269).  Entries below
block - maxHist are discarded by a continue statement that the source
places inside the if (exodus_debug_fees) block, hence the dbg parameter; if
everything was discarded, the single most recent entry is kept instead. -/
def PruneCache (dbg : Bool) (maxHist : Int) (hist : List (Int × Int)) (block : Int) :
    List (Int × Int) :=
  let pruneBlock := block - maxHist
  match hist with
  | [] => []
  | firstItem :: rest =>
    if pruneBlock ≤ firstItem.1 then firstItem :: rest
    else
      let newValue := (firstItem :: rest).filter fun e => !(dbg && decide (e.1 < pruneBlock))
      if newValue.isEmpty then [(firstItem :: rest).getLast (List.cons_ne_nil firstItem rest)]
      else newValue

/-- CExodusFeeCache::ClearCache (fees.cpp:63-89): drop any entry at exactly
this block, re-add the rest, append a zero entry for this block, then
prune. -/
def ClearCache (dbg : Bool) (maxHist : Int) (hist : List (Int × Int)) (block : Int) :
    List (Int × Int) :=
  PruneCache dbg maxHist (insertEntry (block, 0) (hist.filter fun e => decide (e.1 ≠ block))) block

/-- std::numeric_limits of int64_t, max(). -/
def int64Max : Int := 9223372036854775807

/-- The overflow guard of AddFee (fees.cpp:101). -/
def addFeeOverflow (currentCachedAmount amount : Int) : Bool :=
  decide (0 < currentCachedAmount) && decide (int64Max - currentCachedAmount < amount)

/-- CExodusFeeCache::AddFee (fees.cpp:92-142), up to and including the prune.
none models the fatal path: the MP_persist directory is removed and
AbortNode halts the process.  With overrideFlag (-overrideforcedshutdown)
set, or without overflow, the history is rewritten with the running total
current + amount at this block (the C++ addition would wrap on the override
path; we keep the mathematical value).  The subsequent EvalCache /
DistributeCache step is modelled separately. -/
def AddFee (overrideFlag dbg : Bool) (maxHist : Int) (hist : List (Int × Int))
    (block amount : Int) : Option (List (Int × Int)) :=
  let currentCachedAmount := GetCachedAmount hist
  if addFeeOverflow currentCachedAmount amount && !overrideFlag then none
  else
    some (PruneCache dbg maxHist
      (insertEntry (block, currentCachedAmount + amount) (hist.filter fun e => decide (e.1 ≠ block)))
      block)

/-- Lookup in the global std::map distributionThresholds; operator[] on a
missing key default-constructs the value 0. -/
def mapGetThreshold (thresholds : List (Nat × Int)) (propertyId : Nat) : Int :=
  match thresholds with
  | [] => 0
  | kv :: rest => if kv.1 = propertyId then kv.2 else mapGetThreshold rest propertyId

/-- CExodusFeeCache::GetDistributionThreshold (fees.cpp:30-33). -/
def GetDistributionThreshold (thresholds : List (Nat × Int)) (propertyId : Nat) : Int :=
  mapGetThreshold thresholds propertyId

/-- CExodusFeeCache::UpdateDistributionThresholds (fees.cpp:36-44):
totalSupply / EXODUS_FEE_THRESHOLD with C++ (truncating) int64 division,
floored to 1 when not positive.  totalTokens models getTotalTokens. -/
def UpdateDistributionThresholds (totalTokens : Nat → Int) (feeThreshold : Int)
    (thresholds : List (Nat × Int)) (propertyId : Nat) : List (Nat × Int) :=
  let distributionThreshold := Int.tdiv (totalTokens propertyId) feeThreshold
  let distributionThreshold := if distributionThreshold ≤ 0 then 1 else distributionThreshold
  (propertyId, distributionThreshold) :: thresholds.filter fun kv => decide (kv.1 ≠ propertyId)

/-- CExodusFeeCache::EvalCache (fees.cpp:174-179) as the predicate deciding
whether DistributeCache is invoked. -/
def EvalCache (thresholds : List (Nat × Int)) (propertyId : Nat) (hist : List (Int × Int)) :
    Bool :=
  decide (mapGetThreshold thresholds propertyId ≤ GetCachedAmount hist)

/-- CExodusFeeCache::RollBackCache (fees.cpp:145-171) on one property's
history: if the most recent entry is below the rollback block nothing is
written, otherwise only the entries strictly below the block are re-written
(the source applies this to every property id of both ecosystems). -/
def RollBackCache (hist : List (Int × Int)) (block : Int) : List (Int × Int) :=
  match hist with
  | [] => []
  | x :: xs =>
    if ((x :: xs).getLast (List.cons_ne_nil x xs)).1 < block then x :: xs
    else (x :: xs).filter fun e => decide (e.1 < block)

/-- The credit loop of DistributeCache (fees.cpp:204-212): each receiver's
share is credited through update_tally_map (asserted to succeed, none models
the assertion failure), the running total accumulated and the recipient
recorded.  creditOk models update_tally_map's success for this property. -/
def creditAll (creditOk : Str → Int → Bool) : List (Int × Str) → Option (Int × List (Str × Int))
  | [] => some (0, [])
  | r :: rest =>
    if creditOk r.2 r.1 then
      match creditAll creditOk rest with
      | none => none
      | some (sentSoFar, historyItems) => some (sentSoFar + r.1, (r.2, r.1) :: historyItems)
    else none

/-- CExodusFeeCache::DistributeCache (fees.cpp:182-222).  receiversSet is the
external STO_GetReceivers result for the ecosystem's reference asset.  On
success the result carries the RecordFeeDistribution record
(propertyId, block, sent_so_far, historyItems) and the cleared cache; none
models an assertion failure (a failed credit, or sent_so_far differing from
the cached amount).  The source iterates the receiver set in reverse; the
accumulated total and recipient set do not depend on that order. -/
def DistributeCache (creditOk : Str → Int → Bool) (receiversSet : List (Int × Str))
    (dbg : Bool) (maxHist : Int) (propertyId : Nat) (hist : List (Int × Int)) (block : Int) :
    Option ((Nat × Int × Int × List (Str × Int)) × List (Int × Int)) :=
  let cachedAmount := GetCachedAmount hist
  match creditAll creditOk receiversSet with
  | none => none
  | some (sent_so_far, historyItems) =>
    if sent_so_far = cachedAmount then
      some ((propertyId, block, sent_so_far, historyItems), ClearCache dbg maxHist hist block)
    else none

/-- Ascending block heights (what iterating the std::set of GetCacheHistory
yields; the write paths keep at most one entry per height). -/
def histSorted : List (Int × Int) → Bool
  | [] => true
  | x :: l => (l.all fun y => decide (x.1 < y.1)) && histSorted l

/-! ## CExodusFeeHistory -/

/-- leveldb Get on the history table (association list of key/value
strings); none models status.IsNotFound(). -/
def dbGet (store : List (Str × Str)) (k : Str) : Option Str :=
  match store with
  | [] => none
  | kv :: rest => if kv.1 = k then some kv.2 else dbGet rest k

/-- leveldb Put: the record under this key is replaced. -/
def dbPut (store : List (Str × Str)) (k v : Str) : List (Str × Str) :=
  (k, v) :: store.filter fun kv => decide (kv.1 ≠ k)

/-- CExodusFeeHistory::CountRecords (fees.cpp:341-351): a full scan. -/
def CountRecords (store : List (Str × Str)) : Nat := store.length

/-- The recipient list encoding of RecordFeeDistribution (fees.cpp:476-484):
address=amount entries joined by commas (the source appends a trailing comma
per entry and then resizes it away). -/
def encodeRecipients : List (Str × Int) → Str
  | [] => []
  | r :: rest =>
    r.1 ++ '=' :: (printInt r.2 ++ (if rest = [] then [] else ',' :: encodeRecipients rest))

/-- The value strprintf("%d:%d:%d:%s", block, propertyId, total,
feeRecipientsStr) written by RecordFeeDistribution (fees.cpp:486). -/
def encodeFeeRecord (block : Int) (propertyId : Nat) (total : Int)
    (feeRecipients : List (Str × Int)) : Str :=
  printInt block ++ ':' :: (printNat propertyId ++ ':' :: (printInt total ++ ':' ::
    encodeRecipients feeRecipients))

/-- CExodusFeeHistory::RecordFeeDistribution (fees.cpp:468-489): the key is
CountRecords() + 1 as a decimal string.  feeRecipients stands for the
std::set of recipients, listed in its ascending iteration order. -/
def RecordFeeDistribution (store : List (Str × Str)) (propertyId : Nat) (block : Int)
    (total : Int) (feeRecipients : List (Str × Int)) : List (Str × Str) :=
  let count := CountRecords store + 1
  dbPut store (printNat count) (encodeFeeRecord block propertyId total feeRecipients)

/-- The field decoding of CExodusFeeHistory::GetDistributionData
(fees.cpp:417-427) on a stored value: colon split with compression, exactly
four fields, then block / propertyId / total by lexical_cast. -/
def decodeDistributionData (strValue : Str) : Option (Int × Nat × Int) :=
  let vFeeHistoryDetail := splitCompress ':' strValue
  if vFeeHistoryDetail.length ≠ 4 then none
  else
    match parseInt (vFeeHistoryDetail.headD []), parseNat (vFeeHistoryDetail.getD 1 []),
        parseInt (vFeeHistoryDetail.getD 2 []) with
    | some block, some propertyId, some total => some (block, propertyId, total)
    | _, _, _ => none

/-- CExodusFeeHistory::GetDistributionData (fees.cpp:406-428); none covers
both the not-found and the bad-data return false paths. -/
def GetDistributionData (store : List (Str × Str)) (id : Nat) : Option (Int × Nat × Int) :=
  match dbGet store (printNat id) with
  | none => none
  | some strValue => decodeDistributionData strValue

/-- The recipient loop of GetFeeDistribution (fees.cpp:452-462): each comma
token is split on equals; tokens without exactly two parts are skipped, and
a bad amount is a lexical_cast exception (none). -/
def parseRecipientsAux : List Str → Option (List (Str × Int))
  | [] => some []
  | tok :: rest =>
    let vFeeHistoryItem := splitCompress '=' tok
    if vFeeHistoryItem.length ≠ 2 then parseRecipientsAux rest
    else
      match parseInt (vFeeHistoryItem.getD 1 []) with
      | none => none
      | some amount =>
        (parseRecipientsAux rest).map fun items => (vFeeHistoryItem.headD [], amount) :: items

/-- The decoding of CExodusFeeHistory::GetFeeDistribution (fees.cpp:443-464)
on a stored value: a field-count mismatch returns the empty set. -/
def decodeFeeDistribution (strValue : Str) : Option (List (Str × Int)) :=
  let vFeeHistoryDetail := splitCompress ':' strValue
  if vFeeHistoryDetail.length ≠ 4 then some []
  else parseRecipientsAux (splitCompress ',' (vFeeHistoryDetail.getD 3 []))

/-- CExodusFeeHistory::GetFeeDistribution (fees.cpp:431-465); not found
returns the empty set, none models the uncaught lexical_cast exception. -/
def GetFeeDistribution (store : List (Str × Str)) (id : Nat) : Option (List (Str × Int)) :=
  match dbGet store (printNat id) with
  | none => some []
  | some strValue => decodeFeeDistribution strValue

/-- The stored block height of a fee history value, as RollBackHistory reads
it: defined only for well-formed four-field values. -/
def feeRecordBlock (strValue : Str) : Option Int :=
  let vFeeHistoryDetail := splitCompress ':' strValue
  if vFeeHistoryDetail.length = 4 then parseInt (vFeeHistoryDetail.headD []) else none

/-- Whether RollBackHistory at this block keeps a record: malformed records
are skipped (kept), well-formed ones only below the block. -/
def keptOnRollback (block : Int) (kv : Str × Str) : Bool :=
  match feeRecordBlock kv.2 with
  | some feeBlock => decide (feeBlock < block)
  | none => true

/-- CExodusFeeHistory::RollBackHistory (fees.cpp:354-376): a full scan
deleting every record whose first field parses to a height of at least
block; values that do not split into four fields are logged and skipped;
none models the uncaught lexical_cast exception on a four-field value with a
non-numeric first field. -/
def RollBackHistory (block : Int) : List (Str × Str) → Option (List (Str × Str))
  | [] => some []
  | (strKey, strValue) :: rest =>
    let vFeeHistoryDetail := splitCompress ':' strValue
    if vFeeHistoryDetail.length ≠ 4 then
      (RollBackHistory block rest).map fun kept => (strKey, strValue) :: kept
    else
      match parseInt (vFeeHistoryDetail.headD []) with
      | none => none
      | some feeBlock =>
        if block ≤ feeBlock then RollBackHistory block rest
        else (RollBackHistory block rest).map fun kept => (strKey, strValue) :: kept

/-! ## Printer / parser lemmas -/

theorem printNatAux_eq (n : Nat) (h : n ≠ 0) :
    printNatAux n = printNatAux (n / 10) ++ [Nat.digitChar (n % 10)] := by
  rw [printNatAux]
  simp [h]

theorem digitChar_isDigit (d : Nat) (h : d < 10) : (Nat.digitChar d).isDigit = true := by
  interval_cases d <;> decide

theorem digitChar_toNat (d : Nat) (h : d < 10) : (Nat.digitChar d).toNat - 48 = d := by
  interval_cases d <;> decide

theorem isDigit_ne_delims (ch : Char) (h : ch.isDigit = true) :
    ch ≠ ':' ∧ ch ≠ ',' ∧ ch ≠ '=' ∧ ch ≠ '-' := by
  refine ⟨?_, ?_, ?_, ?_⟩ <;> rintro rfl <;> simp at h

theorem printNatAux_digits (n : Nat) : ∀ ch ∈ printNatAux n, ch.isDigit = true := by
  induction n using Nat.strong_induction_on with
  | _ n ih =>
    by_cases h : n = 0
    · subst h
      intro ch hch
      rw [printNatAux] at hch
      simp at hch
    · intro ch hch
      rw [printNatAux_eq n h] at hch
      rcases List.mem_append.mp hch with hch | hch
      · exact ih (n / 10) (Nat.div_lt_self (Nat.pos_of_ne_zero h) (by omega)) ch hch
      · rcases List.mem_singleton.mp hch with rfl
        exact digitChar_isDigit _ (Nat.mod_lt n (by omega))

theorem printNatAux_ne_nil (n : Nat) (h : n ≠ 0) : printNatAux n ≠ [] := by
  rw [printNatAux_eq n h]
  simp

theorem parseNatAux_append (a : Nat) (s t : Str) :
    parseNatAux a (s ++ t) =
      match parseNatAux a s with
      | none => none
      | some b => parseNatAux b t := by
  induction s generalizing a with
  | nil => simp [parseNatAux]
  | cons c cs ih =>
    by_cases hc : c.isDigit = true
    · simp [parseNatAux, hc, ih]
    · simp [parseNatAux, hc]

theorem parseNatAux_printNatAux (n : Nat) :
    ∀ a, parseNatAux a (printNatAux n) = some (a * 10 ^ (printNatAux n).length + n) := by
  induction n using Nat.strong_induction_on with
  | _ n ih =>
    intro a
    by_cases h : n = 0
    · subst h
      rw [printNatAux]
      simp [parseNatAux]
    · have hlt : n / 10 < n := Nat.div_lt_self (Nat.pos_of_ne_zero h) (by omega)
      have hmod : n % 10 < 10 := Nat.mod_lt n (by omega)
      rw [printNatAux_eq n h, parseNatAux_append, ih (n / 10) hlt a]
      have hdig := digitChar_isDigit (n % 10) hmod
      simp only [parseNatAux, hdig, if_pos, List.length_append, List.length_singleton]
      rw [digitChar_toNat (n % 10) hmod]
      have hdm : 10 * (n / 10) + n % 10 = n := Nat.div_add_mod n 10
      congr 1
      calc 10 * (a * 10 ^ (printNatAux (n / 10)).length + n / 10) + n % 10
          = a * (10 ^ (printNatAux (n / 10)).length * 10) + (10 * (n / 10) + n % 10) := by ring
        _ = a * 10 ^ ((printNatAux (n / 10)).length + 1) + n := by rw [hdm, pow_succ]

theorem parseNat_printNat (n : Nat) : parseNat (printNat n) = some n := by
  by_cases h : n = 0
  · subst h
    decide
  · have hne := printNatAux_ne_nil n h
    rw [printNat, if_neg h]
    match hw : printNatAux n with
    | [] => exact absurd hw hne
    | c :: cs =>
      rw [parseNat, ← hw, parseNatAux_printNatAux n 0]
      simp

theorem printNat_ne_nil (n : Nat) : printNat n ≠ [] := by
  rw [printNat]
  split
  · simp
  · exact printNatAux_ne_nil n (by assumption)

theorem printNat_digits (n : Nat) : ∀ ch ∈ printNat n, ch.isDigit = true := by
  rw [printNat]
  split
  · intro ch hch
    rcases List.mem_singleton.mp hch with rfl
    decide
  · exact printNatAux_digits n

theorem printInt_ne_nil (n : Int) : printInt n ≠ [] := by
  rw [printInt]
  split
  · simp
  · exact printNat_ne_nil _

theorem printInt_chars (n : Int) : ∀ ch ∈ printInt n, ch.isDigit = true ∨ ch = '-' := by
  rw [printInt]
  split
  · intro ch hch
    rcases List.mem_cons.mp hch with rfl | hch
    · exact Or.inr rfl
    · exact Or.inl (printNat_digits _ ch hch)
  · exact fun ch hch => Or.inl (printNat_digits _ ch hch)

theorem printInt_ne_delims (n : Int) :
    ∀ ch ∈ printInt n, ch ≠ ':' ∧ ch ≠ ',' ∧ ch ≠ '=' := by
  intro ch hch
  rcases printInt_chars n ch hch with h | rfl
  · have := isDigit_ne_delims ch h
    exact ⟨this.1, this.2.1, this.2.2.1⟩
  · exact ⟨by decide, by decide, by decide⟩

theorem printNat_ne_delims (n : Nat) :
    ∀ ch ∈ printNat n, ch ≠ ':' ∧ ch ≠ ',' ∧ ch ≠ '=' := by
  intro ch hch
  have := isDigit_ne_delims ch (printNat_digits n ch hch)
  exact ⟨this.1, this.2.1, this.2.2.1⟩

theorem parseInt_printInt (n : Int) : parseInt (printInt n) = some n := by
  by_cases h : n < 0
  · rw [printInt, if_pos h, parseInt]
    simp only [if_pos rfl, parseNat_printNat]
    simp
    omega
  · rw [printInt, if_neg h]
    have hne := printNat_ne_nil n.toNat
    match hw : printNat n.toNat with
    | [] => exact absurd hw hne
    | c :: cs =>
      have hcdig : c.isDigit = true := by
        apply printNat_digits n.toNat
        rw [hw]
        exact List.mem_cons_self c cs
      have hcne : ¬(c = '-') := by
        intro hc
        subst hc
        simp at hcdig
      rw [parseInt, if_neg hcne, ← hw, parseNat_printNat]
      simp
      omega

/-! ## Split lemmas -/

theorem collapse_cons (c a : Char) (rest : Str) (h : a = c → rest.head? ≠ some c) :
    collapse c (a :: rest) = a :: collapse c rest := by
  match rest with
  | [] => rfl
  | b :: rs =>
    rw [collapse]
    rw [if_neg]
    rintro ⟨rfl, rfl⟩
    exact h rfl rfl

theorem collapse_of_forall (c : Char) (s : Str) (h : ∀ x ∈ s, x ≠ c) :
    collapse c s = s := by
  induction s with
  | nil => rfl
  | cons a rest ih =>
    rw [collapse_cons c a rest (fun ha => absurd ha (h a (List.mem_cons_self a rest)))]
    rw [ih (fun x hx => h x (List.mem_cons_of_mem a hx))]

theorem collapse_append (c : Char) (t s : Str) (ht : ∀ x ∈ t, x ≠ c)
    (hs : s.head? ≠ some c) : collapse c (t ++ c :: s) = t ++ c :: collapse c s := by
  induction t with
  | nil =>
    simp only [List.nil_append]
    exact collapse_cons c c s (fun _ => hs)
  | cons x t' ih =>
    simp only [List.cons_append]
    rw [collapse_cons]
    · rw [ih (fun y hy => ht y (List.mem_cons_of_mem x hy))]
    · intro hx
      exact absurd hx (ht x (List.mem_cons_self x t'))

theorem splitCh_ne_nil (c : Char) (s : Str) : splitCh c s ≠ [] := by
  induction s with
  | nil => simp [splitCh]
  | cons x xs ih =>
    rw [splitCh]
    split
    · simp
    · match hw : splitCh c xs with
      | [] => exact absurd hw ih
      | t :: ts => simp

theorem splitCh_of_forall (c : Char) (t : Str) (h : ∀ x ∈ t, x ≠ c) :
    splitCh c t = [t] := by
  induction t with
  | nil => rfl
  | cons x t' ih =>
    rw [splitCh, if_neg (h x (List.mem_cons_self x t')), ih (fun y hy => h y (List.mem_cons_of_mem x hy))]

theorem splitCh_append (c : Char) (t s : Str) (ht : ∀ x ∈ t, x ≠ c) :
    splitCh c (t ++ c :: s) = t :: splitCh c s := by
  induction t with
  | nil =>
    simp only [List.nil_append]
    rw [splitCh, if_pos rfl]
  | cons x t' ih =>
    simp only [List.cons_append]
    rw [splitCh, if_neg (ht x (List.mem_cons_self x t'))]
    rw [ih (fun y hy => ht y (List.mem_cons_of_mem x hy))]

theorem splitCompress_append (c : Char) (t s : Str) (ht : ∀ x ∈ t, x ≠ c)
    (hs : s.head? ≠ some c) : splitCompress c (t ++ c :: s) = t :: splitCompress c s := by
  rw [splitCompress, collapse_append c t s ht hs, splitCh_append c t _ ht, splitCompress]

theorem splitCompress_of_forall (c : Char) (t : Str) (h : ∀ x ∈ t, x ≠ c) :
    splitCompress c t = [t] := by
  rw [splitCompress, collapse_of_forall c t h, splitCh_of_forall c t h]

theorem head?_append_ne (t s : Str) (h : t ≠ []) : (t ++ s).head? = t.head? := by
  match t with
  | [] => exact absurd rfl h
  | x :: xs => rfl

/-! ## Record encoding round-trip -/

/-- Addresses free of the three delimiter characters of the record format
(true of the base58 addresses the source stores). -/
def CleanAddrs (rs : List (Str × Int)) : Prop :=
  ∀ r ∈ rs, ∀ ch ∈ r.1, ch ≠ ':' ∧ ch ≠ ',' ∧ ch ≠ '='

theorem encodeRecipients_cons (r : Str × Int) (rest : List (Str × Int)) :
    encodeRecipients (r :: rest) =
      r.1 ++ '=' :: (printInt r.2 ++ (if rest = [] then [] else ',' :: encodeRecipients rest)) :=
  rfl

theorem encodeRecipients_chars (rs : List (Str × Int)) (hclean : CleanAddrs rs) :
    ∀ ch ∈ encodeRecipients rs, ch ≠ ':' := by
  induction rs with
  | nil => simp [encodeRecipients]
  | cons r rest ih =>
    have hr : ∀ ch ∈ r.1, ch ≠ ':' := fun ch hch => (hclean r (List.mem_cons_self r rest) ch hch).1
    have hrest : CleanAddrs rest := fun q hq => hclean q (List.mem_cons_of_mem r hq)
    intro ch hch
    rw [encodeRecipients_cons] at hch
    rcases List.mem_append.mp hch with hch | hch
    · exact hr ch hch
    · rcases List.mem_cons.mp hch with rfl | hch
      · decide
      · rcases List.mem_append.mp hch with hch | hch
        · exact (printInt_ne_delims r.2 ch hch).1
        · split at hch
          · simp at hch
          · rcases List.mem_cons.mp hch with rfl | hch
            · decide
            · exact ih hrest ch hch

theorem encodeRecipients_head? (rs : List (Str × Int)) (hclean : CleanAddrs rs) :
    (encodeRecipients rs).head? ≠ some ':' ∧ (encodeRecipients rs).head? ≠ some ',' := by
  match rs with
  | [] => simp [encodeRecipients]
  | r :: rest =>
    rw [encodeRecipients_cons]
    match ha : r.1 with
    | [] => simp
    | a :: as =>
      have := hclean r (List.mem_cons_self r rest) a (by rw [ha]; exact List.mem_cons_self a as)
      simp only [List.cons_append, List.head?_cons]
      constructor
      · intro hcontra
        exact this.1 (Option.some.inj hcontra)
      · intro hcontra
        exact this.2.1 (Option.some.inj hcontra)

theorem splitCompress_colon_encode (block : Int) (propertyId : Nat) (total : Int)
    (rs : List (Str × Int)) (hclean : CleanAddrs rs) :
    splitCompress ':' (encodeFeeRecord block propertyId total rs) =
      [printInt block, printNat propertyId, printInt total, encodeRecipients rs] := by
  rw [encodeFeeRecord]
  rw [splitCompress_append ':' (printInt block) _
    (fun ch hch => (printInt_ne_delims block ch hch).1)
    (by rw [head?_append_ne _ _ (printNat_ne_nil propertyId)]
        match hw : printNat propertyId with
        | [] => exact absurd hw (printNat_ne_nil propertyId)
        | c :: cs =>
          have hc : c.isDigit = true := by
            apply printNat_digits propertyId
            rw [hw]; exact List.mem_cons_self c cs
          simp only [List.head?_cons]
          intro hcontra
          exact (isDigit_ne_delims c hc).1 (Option.some.inj hcontra))]
  rw [splitCompress_append ':' (printNat propertyId) _
    (fun ch hch => (printNat_ne_delims propertyId ch hch).1)
    (by rw [head?_append_ne _ _ (printInt_ne_nil total)]
        match hw : printInt total with
        | [] => exact absurd hw (printInt_ne_nil total)
        | c :: cs =>
          have hc : c ≠ ':' := by
            apply fun h => (printInt_ne_delims total c h).1
            rw [hw]; exact List.mem_cons_self c cs
          simp only [List.head?_cons]
          intro hcontra
          exact hc (Option.some.inj hcontra))]
  rw [splitCompress_append ':' (printInt total) _
    (fun ch hch => (printInt_ne_delims total ch hch).1)
    (encodeRecipients_head? rs hclean).1]
  rw [splitCompress_of_forall ':' _ (encodeRecipients_chars rs hclean)]

theorem token_chars (r : Str × Int) (hr : ∀ ch ∈ r.1, ch ≠ ':' ∧ ch ≠ ',' ∧ ch ≠ '=') :
    ∀ ch ∈ r.1 ++ '=' :: printInt r.2, ch ≠ ',' := by
  intro ch hch
  rcases List.mem_append.mp hch with hch | hch
  · exact (hr ch hch).2.1
  · rcases List.mem_cons.mp hch with rfl | hch
    · decide
    · exact (printInt_ne_delims r.2 ch hch).2.1

theorem splitCompress_comma_encodeRecipients (rs : List (Str × Int)) (hclean : CleanAddrs rs)
    (hne : rs ≠ []) :
    splitCompress ',' (encodeRecipients rs) = rs.map (fun r => r.1 ++ '=' :: printInt r.2) := by
  induction rs with
  | nil => exact absurd rfl hne
  | cons r rest ih =>
    have hr := hclean r (List.mem_cons_self r rest)
    have hrest : CleanAddrs rest := fun q hq => hclean q (List.mem_cons_of_mem r hq)
    match rest with
    | [] =>
      rw [encodeRecipients_cons]
      have h0 : (if ([] : List (Str × Int)) = [] then ([] : Str) else ',' :: encodeRecipients []) = [] := rfl
      rw [h0, List.append_nil]
      simp only [List.map_cons, List.map_nil]
      exact splitCompress_of_forall ',' _ (token_chars r hr)
    | r2 :: rest' =>
      rw [encodeRecipients_cons]
      have hshape : r.1 ++ '=' :: (printInt r.2 ++
            (if (r2 :: rest' : List (Str × Int)) = [] then []
             else ',' :: encodeRecipients (r2 :: rest'))) =
          (r.1 ++ '=' :: printInt r.2) ++ ',' :: encodeRecipients (r2 :: rest') := by
        simp
      rw [hshape]
      rw [splitCompress_append ',' _ _ (token_chars r hr)
        (encodeRecipients_head? (r2 :: rest') hrest).2]
      rw [ih hrest (by simp)]
      simp

theorem splitCompress_eq_token (r : Str × Int) (hr : ∀ ch ∈ r.1, ch ≠ ':' ∧ ch ≠ ',' ∧ ch ≠ '=') :
    splitCompress '=' (r.1 ++ '=' :: printInt r.2) = [r.1, printInt r.2] := by
  rw [splitCompress_append '=' r.1 _ (fun ch hch => (hr ch hch).2.2)]
  · rw [splitCompress_of_forall '=' _ (fun ch hch => (printInt_ne_delims r.2 ch hch).2.2)]
  · match hw : printInt r.2 with
    | [] => exact absurd hw (printInt_ne_nil r.2)
    | c :: cs =>
      have hc : c ≠ '=' := by
        apply fun h => (printInt_ne_delims r.2 c h).2.2
        rw [hw]; exact List.mem_cons_self c cs
      simp only [List.head?_cons]
      intro hcontra
      exact hc (Option.some.inj hcontra)

theorem parseRecipientsAux_tokens (rs : List (Str × Int)) (hclean : CleanAddrs rs) :
    parseRecipientsAux (rs.map (fun r => r.1 ++ '=' :: printInt r.2)) = some rs := by
  induction rs with
  | nil => rfl
  | cons r rest ih =>
    have hr := hclean r (List.mem_cons_self r rest)
    have hrest : CleanAddrs rest := fun q hq => hclean q (List.mem_cons_of_mem r hq)
    simp only [List.map_cons, parseRecipientsAux]
    rw [splitCompress_eq_token r hr]
    simp only [List.length_cons, List.length_nil]
    rw [if_neg (by omega)]
    have hget : ([r.1, printInt r.2] : List Str).getD 1 [] = printInt r.2 := rfl
    have hhead : ([r.1, printInt r.2] : List Str).headD [] = r.1 := rfl
    rw [hget, hhead, parseInt_printInt r.2, ih hrest]
    rfl

theorem decodeDistributionData_encode (block : Int) (propertyId : Nat) (total : Int)
    (rs : List (Str × Int)) (hclean : CleanAddrs rs) :
    decodeDistributionData (encodeFeeRecord block propertyId total rs) =
      some (block, propertyId, total) := by
  rw [decodeDistributionData, splitCompress_colon_encode block propertyId total rs hclean]
  simp only [List.length_cons, List.length_nil]
  rw [if_neg (by omega)]
  have h0 : ([printInt block, printNat propertyId, printInt total,
      encodeRecipients rs] : List Str).headD [] = printInt block := rfl
  have h1 : ([printInt block, printNat propertyId, printInt total,
      encodeRecipients rs] : List Str).getD 1 [] = printNat propertyId := rfl
  have h2 : ([printInt block, printNat propertyId, printInt total,
      encodeRecipients rs] : List Str).getD 2 [] = printInt total := rfl
  rw [h0, h1, h2, parseInt_printInt block, parseNat_printNat propertyId, parseInt_printInt total]

theorem decodeFeeDistribution_encode (block : Int) (propertyId : Nat) (total : Int)
    (rs : List (Str × Int)) (hclean : CleanAddrs rs) :
    decodeFeeDistribution (encodeFeeRecord block propertyId total rs) = some rs := by
  rw [decodeFeeDistribution, splitCompress_colon_encode block propertyId total rs hclean]
  simp only [List.length_cons, List.length_nil]
  rw [if_neg (by omega)]
  have h3 : ([printInt block, printNat propertyId, printInt total,
      encodeRecipients rs] : List Str).getD 3 [] = encodeRecipients rs := rfl
  rw [h3]
  match rs with
  | [] => rfl
  | r :: rest =>
    rw [splitCompress_comma_encodeRecipients (r :: rest) hclean (by simp)]
    exact parseRecipientsAux_tokens (r :: rest) hclean

theorem dbGet_dbPut (store : List (Str × Str)) (k v : Str) :
    dbGet (dbPut store k v) k = some v := by
  simp [dbGet, dbPut]

/-! ## Fee cache lemmas -/

theorem histSorted_cons (x : Int × Int) (l : List (Int × Int)) :
    histSorted (x :: l) = true ↔ (∀ y ∈ l, x.1 < y.1) ∧ histSorted l = true := by
  simp [histSorted, List.all_eq_true]

theorem histSorted_filter (l : List (Int × Int)) (p : Int × Int → Bool)
    (h : histSorted l = true) : histSorted (l.filter p) = true := by
  induction l with
  | nil => rfl
  | cons x xs ih =>
    rcases (histSorted_cons x xs).mp h with ⟨hx, hxs⟩
    rw [List.filter_cons]
    split
    · rw [histSorted_cons]
      exact ⟨fun y hy => hx y (List.mem_of_mem_filter hy), ih hxs⟩
    · exact ih hxs

theorem histSorted_le_last (l : List (Int × Int)) (h : histSorted l = true) (hne : l ≠ []) :
    ∀ e ∈ l, e.1 ≤ (l.getLast hne).1 := by
  induction l with
  | nil => exact absurd rfl hne
  | cons x xs ih =>
    rcases (histSorted_cons x xs).mp h with ⟨hx, hxs⟩
    intro e he
    match xs with
    | [] =>
      rcases List.mem_singleton.mp he with rfl
      exact le_refl _
    | y :: ys =>
      rw [List.getLast_cons (List.cons_ne_nil y ys)]
      rcases List.mem_cons.mp he with rfl | he
      · exact le_of_lt (hx _ (List.getLast_mem (List.cons_ne_nil y ys)))
      · exact ih hxs (List.cons_ne_nil y ys) e he

theorem getLast?_filter (l : List (Int × Int)) (p : Int × Int → Bool) (hne : l ≠ [])
    (hp : p (l.getLast hne) = true) : (l.filter p).getLast? = some (l.getLast hne) := by
  induction l with
  | nil => exact absurd rfl hne
  | cons x xs ih =>
    match xs with
    | [] =>
      simp only [List.getLast_singleton] at hp
      simp [List.filter_cons, hp]
    | y :: ys =>
      rw [List.getLast_cons (List.cons_ne_nil y ys)] at hp
      have htail := ih (List.cons_ne_nil y ys) hp
      rw [List.filter_cons]
      rw [List.getLast_cons (List.cons_ne_nil y ys)]
      split
      · match hw : (y :: ys).filter p with
        | [] => rw [hw] at htail; simp at htail
        | z :: zs =>
          rw [hw] at htail
          rw [List.getLast?_cons_cons, htail]
      · exact htail

theorem mem_of_getLast? (l : List (Int × Int)) (e : Int × Int) (h : l.getLast? = some e) :
    e ∈ l := by
  match l with
  | [] => simp at h
  | x :: xs =>
    rw [List.getLast?_eq_getLast (x :: xs) (List.cons_ne_nil x xs)] at h
    rcases Option.some.inj h with rfl
    exact List.getLast_mem (List.cons_ne_nil x xs)

theorem insertEntry_ne_nil (e : Int × Int) (l : List (Int × Int)) : insertEntry e l ≠ [] := by
  match l with
  | [] => simp [insertEntry]
  | x :: xs =>
    rw [insertEntry]
    split <;> simp

theorem insertEntry_mem (e : Int × Int) (l : List (Int × Int)) : e ∈ insertEntry e l := by
  induction l with
  | nil => exact List.mem_singleton.mpr rfl
  | cons x xs ih =>
    rw [insertEntry]
    split
    · exact List.mem_cons_self e (x :: xs)
    · exact List.mem_cons_of_mem x ih

theorem mem_insertEntry (e y : Int × Int) (l : List (Int × Int))
    (h : y ∈ insertEntry e l) : y = e ∨ y ∈ l := by
  induction l with
  | nil => exact Or.inl (List.mem_singleton.mp h)
  | cons x xs ih =>
    rw [insertEntry] at h
    split at h
    · rcases List.mem_cons.mp h with rfl | h
      · exact Or.inl rfl
      · exact Or.inr h
    · rcases List.mem_cons.mp h with rfl | h
      · exact Or.inr (List.mem_cons_self y xs)
      · rcases ih h with h | h
        · exact Or.inl h
        · exact Or.inr (List.mem_cons_of_mem x h)

theorem insertEntry_sorted (e : Int × Int) (l : List (Int × Int)) (h : histSorted l = true)
    (hne : ∀ x ∈ l, x.1 ≠ e.1) : histSorted (insertEntry e l) = true := by
  induction l with
  | nil => simp [insertEntry, histSorted]
  | cons x xs ih =>
    rcases (histSorted_cons x xs).mp h with ⟨hx, hxs⟩
    rw [insertEntry]
    split
    · rw [histSorted_cons]
      refine ⟨?_, h⟩
      intro y hy
      rcases List.mem_cons.mp hy with rfl | hy
      · assumption
      · exact lt_trans (by assumption) (hx y hy)
    · rw [histSorted_cons]
      constructor
      · intro y hy
        rcases mem_insertEntry e y xs hy with rfl | hy
        · have h1 : ¬(y.1 < x.1) := by assumption
          have h2 : x.1 ≠ y.1 := hne x (List.mem_cons_self x xs)
          omega
        · exact hx y hy
      · exact ih hxs (fun q hq => hne q (List.mem_cons_of_mem x hq))

theorem insertEntry_getLast_big (e : Int × Int) (l : List (Int × Int))
    (h : ∀ x ∈ l, ¬(e.1 < x.1)) : (insertEntry e l).getLast? = some e := by
  induction l with
  | nil => rfl
  | cons x xs ih =>
    rw [insertEntry, if_neg (h x (List.mem_cons_self x xs))]
    have htail := ih (fun q hq => h q (List.mem_cons_of_mem x hq))
    match hw : insertEntry e xs with
    | [] => exact absurd hw (insertEntry_ne_nil e xs)
    | z :: zs =>
      rw [hw] at htail
      rw [List.getLast?_cons_cons, htail]

theorem insertEntry_getLast_lt (e : Int × Int) (l : List (Int × Int)) (hne : l ≠ [])
    (h : e.1 < (l.getLast hne).1) : (insertEntry e l).getLast? = l.getLast? := by
  induction l with
  | nil => exact absurd rfl hne
  | cons x xs ih =>
    match xs with
    | [] =>
      simp only [List.getLast_singleton] at h
      rw [insertEntry, if_pos h]
      rfl
    | y :: ys =>
      rw [List.getLast_cons (List.cons_ne_nil y ys)] at h
      rw [insertEntry]
      split
      · rw [List.getLast?_cons_cons]
      · have htail := ih (List.cons_ne_nil y ys) h
        match hw : insertEntry e (y :: ys) with
        | [] => exact absurd hw (insertEntry_ne_nil e (y :: ys))
        | z :: zs =>
          rw [hw] at htail
          rw [List.getLast?_cons_cons, htail, List.getLast?_cons_cons]

theorem PruneCache_getLast? (dbg : Bool) (maxHist : Int) (hist : List (Int × Int)) (block : Int)
    (h : histSorted hist = true) :
    (PruneCache dbg maxHist hist block).getLast? = hist.getLast? := by
  match hist with
  | [] => rfl
  | first :: rest =>
    have hne := List.cons_ne_nil first rest
    by_cases hfirst : block - maxHist ≤ first.1
    · have hdef : PruneCache dbg maxHist (first :: rest) block = first :: rest := by
        rw [PruneCache]
        simp [hfirst]
      rw [hdef]
    · have hdef : PruneCache dbg maxHist (first :: rest) block =
          if ((first :: rest).filter fun e => !(dbg && decide (e.1 < block - maxHist))).isEmpty
          then [(first :: rest).getLast hne]
          else (first :: rest).filter fun e => !(dbg && decide (e.1 < block - maxHist)) := by
        rw [PruneCache]
        simp [hfirst]
      by_cases hp : (!(dbg && decide (((first :: rest).getLast hne).1 < block - maxHist))) = true
      · have hlast := getLast?_filter (first :: rest)
          (fun e => !(dbg && decide (e.1 < block - maxHist))) hne hp
        have hfne : ((first :: rest).filter
            fun e => !(dbg && decide (e.1 < block - maxHist))) ≠ [] := by
          intro hcontra
          rw [hcontra] at hlast
          simp at hlast
        rw [hdef, if_neg (by simpa [List.isEmpty_iff] using hfne), hlast,
          List.getLast?_eq_getLast (first :: rest) hne]
      · have hp2 : dbg = true ∧ ((first :: rest).getLast hne).1 + maxHist < block := by
          simpa using hp
        have hnil : ((first :: rest).filter
            fun e => !(dbg && decide (e.1 < block - maxHist))) = [] := by
          rw [List.filter_eq_nil_iff]
          intro q hq
          have hle := histSorted_le_last (first :: rest) h hne q hq
          have h2 := hp2.2
          simp [hp2.1]
          omega
        rw [hdef, if_pos (List.isEmpty_iff.mpr hnil), List.getLast?_eq_getLast (first :: rest) hne]
        rfl

theorem PruneCache_sorted (dbg : Bool) (maxHist : Int) (hist : List (Int × Int)) (block : Int)
    (h : histSorted hist = true) :
    histSorted (PruneCache dbg maxHist hist block) = true := by
  match hist with
  | [] => rfl
  | first :: rest =>
    rw [PruneCache]
    simp only []
    split
    · exact h
    · split
      · simp [histSorted]
      · exact histSorted_filter _ _ h

theorem PruneCache_mem (dbg : Bool) (maxHist : Int) (hist : List (Int × Int)) (block : Int)
    (e : Int × Int) (he : e ∈ hist) (hge : block - maxHist ≤ e.1) :
    e ∈ PruneCache dbg maxHist hist block := by
  match hist with
  | [] => simp at he
  | first :: rest =>
    rw [PruneCache]
    simp only []
    split
    · exact he
    · have hpe : (!(dbg && decide (e.1 < block - maxHist))) = true := by
        cases dbg
        · simp
        · simp
          omega
      have hmem : e ∈ (first :: rest).filter fun x => !(dbg && decide (x.1 < block - maxHist)) :=
        List.mem_filter.mpr ⟨he, hpe⟩
      split
      · rename_i hempty
        rw [List.isEmpty_iff] at hempty
        rw [hempty] at hmem
        simp at hmem
      · exact hmem

theorem GetCachedAmount_of_getLast? (l : List (Int × Int)) (e : Int × Int)
    (h : l.getLast? = some e) : GetCachedAmount l = e.2 := by
  rw [GetCachedAmount, h]

theorem GetCachedAmount_PruneCache (dbg : Bool) (maxHist : Int) (hist : List (Int × Int))
    (block : Int) (h : histSorted hist = true) :
    GetCachedAmount (PruneCache dbg maxHist hist block) = GetCachedAmount hist := by
  rw [GetCachedAmount, GetCachedAmount, PruneCache_getLast? dbg maxHist hist block h]

theorem cacheRewrite_sorted (hist : List (Int × Int)) (block v : Int)
    (h : histSorted hist = true) :
    histSorted (insertEntry (block, v) (hist.filter fun e => decide (e.1 ≠ block))) = true := by
  apply insertEntry_sorted
  · exact histSorted_filter hist _ h
  · intro x hx
    have := (List.mem_filter.mp hx).2
    simpa using this

theorem cacheRewrite_getLast_le (hist : List (Int × Int)) (block v : Int)
    (hle : ∀ x ∈ hist, x.1 ≤ block) :
    (insertEntry (block, v) (hist.filter fun e => decide (e.1 ≠ block))).getLast? =
      some (block, v) := by
  apply insertEntry_getLast_big
  intro x hx
  have hmem := (List.mem_filter.mp hx).1
  have := hle x hmem
  simp only []
  omega

theorem cacheRewrite_getLast_gt (hist : List (Int × Int)) (block v : Int)
    (h : histSorted hist = true) (hne : hist ≠ [])
    (hgt : block < (hist.getLast hne).1) :
    (insertEntry (block, v) (hist.filter fun e => decide (e.1 ≠ block))).getLast? =
      hist.getLast? := by
  have hp : (decide ((hist.getLast hne).1 ≠ block)) = true := by
    simp
    omega
  have hlast := getLast?_filter hist (fun e => decide (e.1 ≠ block)) hne hp
  have hfne : (hist.filter fun e => decide (e.1 ≠ block)) ≠ [] := by
    intro hcontra
    rw [hcontra] at hlast
    simp at hlast
  have hgl : (hist.filter fun e => decide (e.1 ≠ block)).getLast hfne = hist.getLast hne := by
    have := List.getLast?_eq_getLast (hist.filter fun e => decide (e.1 ≠ block)) hfne
    rw [this] at hlast
    exact Option.some.inj hlast
  rw [insertEntry_getLast_lt (block, v) _ hfne (by rw [hgl]; exact hgt), hlast,
    List.getLast?_eq_getLast hist hne]

theorem GetCachedAmount_ClearCache_le (dbg : Bool) (maxHist : Int) (hist : List (Int × Int))
    (block : Int) (h : histSorted hist = true) (hle : ∀ x ∈ hist, x.1 ≤ block) :
    GetCachedAmount (ClearCache dbg maxHist hist block) = 0 := by
  rw [ClearCache, GetCachedAmount_PruneCache dbg maxHist _ block
    (cacheRewrite_sorted hist block 0 h)]
  rw [GetCachedAmount_of_getLast? _ (block, 0) (cacheRewrite_getLast_le hist block 0 hle)]

theorem GetCachedAmount_ClearCache_gt (dbg : Bool) (maxHist : Int) (hist : List (Int × Int))
    (block : Int) (h : histSorted hist = true) (hne : hist ≠ [])
    (hgt : block < (hist.getLast hne).1) :
    GetCachedAmount (ClearCache dbg maxHist hist block) = GetCachedAmount hist := by
  rw [ClearCache, GetCachedAmount_PruneCache dbg maxHist _ block
    (cacheRewrite_sorted hist block 0 h)]
  rw [GetCachedAmount, GetCachedAmount, cacheRewrite_getLast_gt hist block 0 h hne hgt]

theorem RollBackCache_eq_filter (hist : List (Int × Int)) (block : Int)
    (h : histSorted hist = true) :
    RollBackCache hist block = hist.filter fun e => decide (e.1 < block) := by
  match hist with
  | [] => rfl
  | x :: xs =>
    rw [RollBackCache]
    split
    · rename_i hlast
      have hall : ∀ e ∈ x :: xs, (decide (e.1 < block)) = true := by
        intro e he
        have := histSorted_le_last (x :: xs) h (List.cons_ne_nil x xs) e he
        simp
        omega
      rw [List.filter_eq_self.mpr hall]
    · rfl

theorem creditAll_ok (creditOk : Str → Int → Bool) (receiversSet : List (Int × Str))
    (h : ∀ r ∈ receiversSet, creditOk r.2 r.1 = true) :
    creditAll creditOk receiversSet =
      some ((receiversSet.map Prod.fst).sum, receiversSet.map fun r => (r.2, r.1)) := by
  induction receiversSet with
  | nil => rfl
  | cons r rest ih =>
    rw [creditAll, if_pos (h r (List.mem_cons_self r rest)),
      ih (fun q hq => h q (List.mem_cons_of_mem r hq))]
    simp [add_comm]

/-! ## Claims -/

/-- Claim C3: the spec says PruneCache removes every entry below
block - MAX_STATE_HISTORY (keeping the single most recent entry if that
would empty the history).  The code only does so when the debug-logging
flag exodus_debug_fees is on: the continue that discards a matured entry
sits inside the if (exodus_debug_fees) block (fees.cpp:245-250), so with
debug logging off (the default) nothing is ever pruned.  Concretely, at
block 300 with a 50-block window the matured entry (10, 5) survives with
the flag off and is removed with the flag on. -/
theorem pruneCache_only_prunes_under_debug_flag :
    PruneCache false 50 [(10, 5), (200, 7)] 300 = [(10, 5), (200, 7)] ∧
    PruneCache true 50 [(10, 5), (200, 7)] 300 = [(200, 7)] := by
  decide

/-- Claim C4: pruning never deletes the entry with the greatest block
height: for every history (in ascending block order) and every block, the
most recent entry is still present after PruneCache and the current cached
amount is unchanged, whichever way the debug flag is set and even when that
entry is older than the retention window. -/
theorem pruneCache_keeps_most_recent (dbg : Bool) (maxHist : Int)
    (hist : List (Int × Int)) (block : Int) (h : histSorted hist = true) (hne : hist ≠ []) :
    hist.getLast hne ∈ PruneCache dbg maxHist hist block ∧
    GetCachedAmount (PruneCache dbg maxHist hist block) = GetCachedAmount hist := by
  constructor
  · apply mem_of_getLast?
    rw [PruneCache_getLast? dbg maxHist hist block h, List.getLast?_eq_getLast hist hne]
  · exact GetCachedAmount_PruneCache dbg maxHist hist block h

/-- Witness for C4, with the most recent entry (10, 5) outside the
50-block retention window of block 300. -/
theorem pruneCache_keeps_most_recent_witness :
    ((10:Int), (5:Int)) ∈ PruneCache true 50 [(10, 5)] 300 ∧
    GetCachedAmount (PruneCache true 50 [(10, 5)] 300) = GetCachedAmount [(10, 5)] :=
  pruneCache_keeps_most_recent true 50 [(10, 5)] 300 (by decide) (by decide)

/-- Claim C6: RollBackCache discards exactly the entries with height at
least block (always preserving those strictly below), and running it twice
with the same block changes nothing the second time. -/
theorem rollBackCache_filter_and_idempotent (hist : List (Int × Int)) (block : Int)
    (h : histSorted hist = true) :
    RollBackCache hist block = hist.filter (fun e => decide (e.1 < block)) ∧
    RollBackCache (RollBackCache hist block) block = RollBackCache hist block := by
  have h1 := RollBackCache_eq_filter hist block h
  refine ⟨h1, ?_⟩
  rw [h1, RollBackCache_eq_filter _ block (histSorted_filter hist _ h)]
  exact List.filter_eq_self.mpr fun a ha => (List.mem_filter.mp ha).2

/-- Witness for C6 at a history with entries on both sides of the rollback
block. -/
theorem rollBackCache_filter_and_idempotent_witness :
    RollBackCache [(100, 5), (200, 7)] 150 =
      [((100:Int), (5:Int)), (200, 7)].filter (fun e => decide (e.1 < 150)) ∧
    RollBackCache (RollBackCache [(100, 5), (200, 7)] 150) 150 =
      RollBackCache [(100, 5), (200, 7)] 150 :=
  rollBackCache_filter_and_idempotent [(100, 5), (200, 7)] 150 (by decide)

/-- Claim C10: ClearCache only guarantees a zero cached amount when block is
at least every stored height; if the history holds an entry above block, the
cached amount afterwards is that most recent entry's amount, unchanged. -/
theorem clearCache_zero_only_when_latest (dbg : Bool) (maxHist : Int)
    (hist : List (Int × Int)) (block : Int) (h : histSorted hist = true) (hne : hist ≠ []) :
    ((hist.getLast hne).1 ≤ block →
      GetCachedAmount (ClearCache dbg maxHist hist block) = 0) ∧
    (block < (hist.getLast hne).1 →
      GetCachedAmount (ClearCache dbg maxHist hist block) = (hist.getLast hne).2 ∧
      GetCachedAmount (ClearCache dbg maxHist hist block) = GetCachedAmount hist) := by
  constructor
  · intro hle
    apply GetCachedAmount_ClearCache_le dbg maxHist hist block h
    intro x hx
    exact le_trans (histSorted_le_last hist h hne x hx) hle
  · intro hgt
    have h2 := GetCachedAmount_ClearCache_gt dbg maxHist hist block h hne hgt
    refine ⟨?_, h2⟩
    rw [h2, GetCachedAmount_of_getLast? hist (hist.getLast hne)
      (List.getLast?_eq_getLast hist hne)]

/-- Witness for C10: clearing at block 100 leaves the later entry (200, 7)
in charge of the cached amount; clearing at block 300 zeroes it. -/
theorem clearCache_zero_only_when_latest_witness :
    GetCachedAmount (ClearCache false 50 [(100, 5), (200, 7)] 100) = 7 ∧
    GetCachedAmount (ClearCache false 50 [(100, 5), (200, 7)] 300) = 0 := by
  constructor
  · have h := (clearCache_zero_only_when_latest false 50 [(100, 5), (200, 7)] 100
      (by decide) (by decide)).2 (by decide)
    exact h.1
  · exact (clearCache_zero_only_when_latest false 50 [(100, 5), (200, 7)] 300
      (by decide) (by decide)).1 (by decide)

/-- Claim C2: the AddFee write path keeps at most one entry per block height
(ascending heights stay strictly ascending, so no height repeats), and the
entry written at this block carries the running total, the current cached
amount plus the new fee.  Concretely, AddFee(3, 100, 50) then
AddFee(3, 100, 20) leaves exactly the single entry (100, 70), the second
call reading the cached 50 and replacing the block-100 entry - under either
debug-flag setting, and with property 3's distribution threshold at 75
EvalCache does not trigger a distribution at either step. -/
theorem addFee_unique_height_running_total :
    (∀ (overrideFlag dbg : Bool) (maxHist : Int) (hist : List (Int × Int))
      (block amount : Int) (hist2 : List (Int × Int)),
      histSorted hist = true → 0 ≤ maxHist →
      AddFee overrideFlag dbg maxHist hist block amount = some hist2 →
      histSorted hist2 = true ∧ (block, GetCachedAmount hist + amount) ∈ hist2) ∧
    (AddFee false false 50 [] 100 50 = some [(100, 50)] ∧
     AddFee false false 50 [(100, 50)] 100 20 = some [(100, 70)] ∧
     AddFee false true 50 [] 100 50 = some [(100, 50)] ∧
     AddFee false true 50 [(100, 50)] 100 20 = some [(100, 70)] ∧
     EvalCache [(3, 75)] 3 [(100, 50)] = false ∧
     EvalCache [(3, 75)] 3 [(100, 70)] = false) := by
  constructor
  · intro overrideFlag dbg maxHist hist block amount hist2 h hm hadd
    rw [AddFee] at hadd
    split at hadd
    · exact absurd hadd (by simp)
    · rcases Option.some.inj hadd with rfl
      constructor
      · exact PruneCache_sorted dbg maxHist _ block
          (cacheRewrite_sorted hist block (GetCachedAmount hist + amount) h)
      · exact PruneCache_mem dbg maxHist _ block _
          (insertEntry_mem (block, GetCachedAmount hist + amount) _) (by simp; omega)
  · refine ⟨by decide, by decide, by decide, by decide, by decide, by decide⟩

/-- Witness for C2's general conjunct: adding a fee of 5 at block 100 over
the single-entry history at block 50. -/
theorem addFee_unique_height_running_total_witness :
    histSorted [(50, 10), (100, 15)] = true ∧
    ((100:Int), (15:Int)) ∈ [((50:Int), (10:Int)), (100, 15)] :=
  addFee_unique_height_running_total.1 false false 50 [(50, 10)] 100 5
    [(50, 10), (100, 15)] (by decide) (by decide) (by decide)

/-- Claim C8: AddFee treats exactly the case where the cached amount is
positive and adding the fee would pass the int64 maximum as fatal: without
the override flag the chain state is purged and the process halted (the
none outcome) instead of writing the overflowed amount; with the override
flag set, or in every non-overflow case, the history receives the entry
with running total current + amount at this block. -/
theorem addFee_overflow_fatal_unless_override (overrideFlag dbg : Bool) (maxHist : Int)
    (hist : List (Int × Int)) (block amount : Int) (hm : 0 ≤ maxHist) :
    (addFeeOverflow (GetCachedAmount hist) amount = true ↔
      0 < GetCachedAmount hist ∧ int64Max < GetCachedAmount hist + amount) ∧
    (addFeeOverflow (GetCachedAmount hist) amount = true →
      AddFee false dbg maxHist hist block amount = none) ∧
    (addFeeOverflow (GetCachedAmount hist) amount = true →
      ∃ hist2, AddFee true dbg maxHist hist block amount = some hist2 ∧
        (block, GetCachedAmount hist + amount) ∈ hist2) ∧
    (addFeeOverflow (GetCachedAmount hist) amount = false →
      ∃ hist2, AddFee overrideFlag dbg maxHist hist block amount = some hist2 ∧
        (block, GetCachedAmount hist + amount) ∈ hist2) := by
  refine ⟨?_, ?_, ?_, ?_⟩
  · rw [addFeeOverflow]
    simp
    omega
  · intro hov
    rw [AddFee, if_pos (by simp [hov])]
  · intro hov
    refine ⟨PruneCache dbg maxHist (insertEntry (block, GetCachedAmount hist + amount)
      (hist.filter fun e => decide (e.1 ≠ block))) block, ?_, ?_⟩
    · rw [AddFee, if_neg (by simp)]
    · exact PruneCache_mem dbg maxHist _ block _
        (insertEntry_mem (block, GetCachedAmount hist + amount) _) (by simp; omega)
  · intro hov
    refine ⟨PruneCache dbg maxHist (insertEntry (block, GetCachedAmount hist + amount)
      (hist.filter fun e => decide (e.1 ≠ block))) block, ?_, ?_⟩
    · rw [AddFee, if_neg (by simp [hov])]
    · exact PruneCache_mem dbg maxHist _ block _
        (insertEntry_mem (block, GetCachedAmount hist + amount) _) (by simp; omega)

/-- Witness for C8: with the cache already at the int64 maximum, adding 1
halts without the override and proceeds with it; a small add writes the
running total. -/
theorem addFee_overflow_fatal_unless_override_witness :
    AddFee false false 50 [(1, int64Max)] 2 1 = none ∧
    (∃ hist2, AddFee false false 50 [(100, 5)] 200 7 = some hist2 ∧
      ((200:Int), GetCachedAmount [((100:Int), (5:Int))] + 7) ∈ hist2) := by
  constructor
  · exact (addFee_overflow_fatal_unless_override false false 50 [(1, int64Max)] 2 1
      (by decide)).2.1 (by decide)
  · exact (addFee_overflow_fatal_unless_override false false 50 [(100, 5)] 200 7
      (by decide)).2.2.2 (by decide)

theorem map_snd_swap (l : List (Int × Str)) :
    (l.map fun r => (r.2, r.1)).map Prod.snd = l.map Prod.fst := by
  induction l with
  | nil => rfl
  | cons r rest ih => simp [ih]

theorem DistributeCache_eq (creditOk : Str → Int → Bool) (receiversSet : List (Int × Str))
    (dbg : Bool) (maxHist : Int) (propertyId : Nat) (hist : List (Int × Int)) (block : Int)
    (hcred : ∀ r ∈ receiversSet, creditOk r.2 r.1 = true) :
    DistributeCache creditOk receiversSet dbg maxHist propertyId hist block =
      if (receiversSet.map Prod.fst).sum = GetCachedAmount hist then
        some ((propertyId, block, (receiversSet.map Prod.fst).sum,
          receiversSet.map fun r => (r.2, r.1)), ClearCache dbg maxHist hist block)
      else none := by
  rw [DistributeCache, creditAll_ok creditOk receiversSet hcred]

/-- Claim C1 counterexample: DistributeCache(3, block 100) on the history
[(100, 5), (200, 7)] completes - the receiver set [(7, "a")] sums exactly to
the cached amount 7 and every credit succeeds - yet the cached amount
afterwards is 7, not 0, because the entry at block 200 outlives the
ClearCache at block 100. -/
theorem distributeCache_stale_cache_counterexample :
    DistributeCache (fun _ _ => true) [(7, ['a'])] false 50 3 [(100, 5), (200, 7)] 100 =
      some ((3, 100, 7, [(['a'], 7)]), [(100, 0), (200, 7)]) ∧
    GetCachedAmount [(100, 0), (200, 7)] ≠ 0 :=
  ⟨rfl, by decide⟩

/-- Claim C1 (amended): under the claim's precondition - the receiver set
sums exactly to the cached amount and every balance credit succeeds - and
provided additionally that block is at least every stored entry's height,
DistributeCache completes, the cached amount afterwards is exactly 0, the
ledger credits and the single recorded FeeHistory total both equal the
cached amount; and a shortfall (shares not summing to the cached amount)
trips the assertion (the none outcome) rather than being accepted. -/
theorem distributeCache_exact_when_latest (creditOk : Str → Int → Bool)
    (receiversSet : List (Int × Str)) (dbg : Bool) (maxHist : Int) (propertyId : Nat)
    (hist : List (Int × Int)) (block : Int) (h : histSorted hist = true)
    (hle : ∀ x ∈ hist, x.1 ≤ block) (hcred : ∀ r ∈ receiversSet, creditOk r.2 r.1 = true) :
    ((receiversSet.map Prod.fst).sum = GetCachedAmount hist →
      DistributeCache creditOk receiversSet dbg maxHist propertyId hist block =
        some ((propertyId, block, GetCachedAmount hist,
          receiversSet.map fun r => (r.2, r.1)), ClearCache dbg maxHist hist block) ∧
      GetCachedAmount (ClearCache dbg maxHist hist block) = 0 ∧
      ((receiversSet.map fun r => (r.2, r.1)).map Prod.snd).sum = GetCachedAmount hist) ∧
    ((receiversSet.map Prod.fst).sum ≠ GetCachedAmount hist →
      DistributeCache creditOk receiversSet dbg maxHist propertyId hist block = none) := by
  constructor
  · intro hsum
    refine ⟨?_, ?_, ?_⟩
    · rw [DistributeCache_eq creditOk receiversSet dbg maxHist propertyId hist block hcred,
        if_pos hsum, hsum]
    · exact GetCachedAmount_ClearCache_le dbg maxHist hist block h hle
    · rw [map_snd_swap, hsum]
  · intro hsum
    rw [DistributeCache_eq creditOk receiversSet dbg maxHist propertyId hist block hcred,
      if_neg hsum]

/-- Witness for the amended C1, distributing the cached 7 at the latest
block 200. -/
theorem distributeCache_exact_when_latest_witness :
    DistributeCache (fun _ _ => true) [(7, ['a'])] false 50 3 [(100, 5), (200, 7)] 200 =
      some ((3, 200, 7, [(['a'], 7)]), [(100, 5), (200, 0)]) ∧
    GetCachedAmount [(100, 5), (200, 0)] = 0 ∧
    (([((7:Int), ['a'])].map fun r => (r.2, r.1)).map Prod.snd).sum = 7 :=
  (distributeCache_exact_when_latest (fun _ _ => true) [(7, ['a'])] false 50 3
    [(100, 5), (200, 7)] 200 (by decide) (by decide) (by decide)).1 (by decide)

/-- Claim C5 counterexample: with a total supply of 0 and divisor 100000
the claimed threshold max(1, supply / divisor) is 1, but before any
UpdateDistributionThresholds call the threshold map is empty and
GetDistributionThreshold reads the default-constructed 0 - which is also
what EvalCache's comparison uses. -/
theorem getDistributionThreshold_unset_counterexample :
    GetDistributionThreshold [] 3 = 0 ∧
    max 1 (Int.tdiv 0 100000) = 1 ∧
    GetDistributionThreshold [] 3 ≠ max 1 (Int.tdiv 0 100000) := by
  decide

/-- Claim C5 (amended): once UpdateDistributionThresholds(p) has run with
the current (non-negative) supply and positive divisor,
GetDistributionThreshold(p) equals max(1, totalSupply(p) / divisor), so in
particular it is never zero; a property never updated reads as 0 instead. -/
theorem getDistributionThreshold_after_update (totalTokens : Nat → Int) (feeThreshold : Int)
    (thresholds : List (Nat × Int)) (propertyId : Nat) (hs : 0 ≤ totalTokens propertyId)
    (hf : 0 < feeThreshold) :
    GetDistributionThreshold
        (UpdateDistributionThresholds totalTokens feeThreshold thresholds propertyId)
        propertyId =
      max 1 (Int.tdiv (totalTokens propertyId) feeThreshold) := by
  have ht : 0 ≤ Int.tdiv (totalTokens propertyId) feeThreshold := Int.tdiv_nonneg hs hf.le
  simp only [GetDistributionThreshold, UpdateDistributionThresholds, mapGetThreshold, if_pos]
  split <;> omega

/-- Witness for the amended C5: supply 250000, divisor 100000, threshold 2. -/
theorem getDistributionThreshold_after_update_witness :
    GetDistributionThreshold (UpdateDistributionThresholds (fun _ => 250000) 100000 [] 7) 7 =
      max 1 (Int.tdiv 250000 100000) :=
  getDistributionThreshold_after_update (fun _ => 250000) 100000 [] 7 (by decide) (by decide)

/-- Claim C7: on a store in which every value is a well-formed record (four
colon fields with a numeric height field), RollBackHistory deletes exactly
the records whose stored block height is at least block, and every other
record survives in place with its sequence-id key and stored content
untouched (the result is precisely the filter keeping the records below
the block). -/
theorem rollBackHistory_deletes_ge (block : Int) (store : List (Str × Str))
    (hwf : ∀ kv ∈ store, (splitCompress ':' kv.2).length = 4 →
      (parseInt ((splitCompress ':' kv.2).headD [])).isSome = true) :
    RollBackHistory block store = some (store.filter (keptOnRollback block)) := by
  induction store with
  | nil => rfl
  | cons kv rest ih =>
    obtain ⟨strKey, strValue⟩ := kv
    have hrest := ih fun q hq => hwf q (List.mem_cons_of_mem _ hq)
    by_cases h4 : (splitCompress ':' strValue).length = 4
    · have hsome := hwf (strKey, strValue) (List.mem_cons_self _ _) h4
      match hp : parseInt ((splitCompress ':' strValue).headD []) with
      | none =>
        rw [hp] at hsome
        simp at hsome
      | some feeBlock =>
        have hk : keptOnRollback block (strKey, strValue) = decide (feeBlock < block) := by
          rw [keptOnRollback]
          simp only []
          rw [feeRecordBlock]
          simp only [if_pos h4, hp]
        rw [RollBackHistory]
        simp only [if_neg (not_not_intro h4), hp]
        by_cases hb : block ≤ feeBlock
        · rw [if_pos hb, hrest, List.filter_cons, hk, if_neg (by simp; omega)]
        · rw [if_neg hb, hrest, List.filter_cons, hk, if_pos (by simp; omega)]
          rfl
    · have hk : keptOnRollback block (strKey, strValue) = true := by
        rw [keptOnRollback]
        simp only []
        rw [feeRecordBlock]
        simp only [if_neg h4]
      rw [RollBackHistory]
      simp only [if_pos h4]
      rw [hrest, List.filter_cons, hk]
      simp

/-- Witness for C7: rolling back at block 500 deletes the record at block
600 and keeps the one at block 100 under its original key and value. -/
theorem rollBackHistory_deletes_ge_witness :
    RollBackHistory 500
        [("1".data, "100:3:50:a=50".data), ("2".data, "600:3:7:".data)] =
      some [("1".data, "100:3:50:a=50".data)] := by
  have h := rollBackHistory_deletes_ge 500
    [("1".data, "100:3:50:a=50".data), ("2".data, "600:3:7:".data)] (by decide)
  rw [h]
  decide

/-- Claim C9: writing a fee-history record with RecordFeeDistribution (any
block, property id, total, and 0, 1 or N recipients whose addresses avoid
the delimiter characters) and reading it back under the sequence id it was
assigned reproduces the property id, block and total through
GetDistributionData and exactly the recipient set through
GetFeeDistribution. -/
theorem recordFeeDistribution_roundtrip (store : List (Str × Str)) (propertyId : Nat)
    (block total : Int) (rs : List (Str × Int)) (hclean : CleanAddrs rs) :
    GetDistributionData (RecordFeeDistribution store propertyId block total rs)
        (CountRecords store + 1) = some (block, propertyId, total) ∧
    GetFeeDistribution (RecordFeeDistribution store propertyId block total rs)
        (CountRecords store + 1) = some rs := by
  have hget : dbGet (RecordFeeDistribution store propertyId block total rs)
      (printNat (CountRecords store + 1)) =
        some (encodeFeeRecord block propertyId total rs) := by
    rw [RecordFeeDistribution]
    exact dbGet_dbPut store _ _
  constructor
  · rw [GetDistributionData, hget]
    exact decodeDistributionData_encode block propertyId total rs hclean
  · rw [GetFeeDistribution, hget]
    exact decodeFeeDistribution_encode block propertyId total rs hclean

/-- Witness for C9: one record with a single recipient written into an
empty store and read back under sequence id 1. -/
theorem recordFeeDistribution_roundtrip_witness :
    GetDistributionData (RecordFeeDistribution [] 3 100 50 [(['a'], 50)]) 1 =
      some (100, 3, 50) ∧
    GetFeeDistribution (RecordFeeDistribution [] 3 100 50 [(['a'], 50)]) 1 =
      some [(['a'], 50)] :=
  recordFeeDistribution_roundtrip [] 3 100 50 [(['a'], 50)] (by unfold CleanAddrs; decide)
